import Mathlib

set_option maxRecDepth 40000

/-!
Verification development for the loco protocol library.

Bytes are modelled as natural numbers (values below 256 in well-formed
data), byte buffers as lists of naturals.  The IO-free sinks and streams
of the repository operate on such buffers; their Rust definitions are
translated here function by function.  Cryptographic primitives that live
in external crates (AES, RSA) are abstracted: the AES block function is a
parameter, RSA wrap and unwrap are parameters, while the CFB-128 mode and
the wire layouts are written out in full.
-/

namespace Loco

/-- Little-endian encoding of a natural number into a fixed number of
bytes, as produced by bincode with fixed-width integer encoding.  Only
the value modulo 256 to the power of the width is represented. -/
def leBytes : Nat → Nat → List Nat
  | 0, _ => []
  | k + 1, n => n % 256 :: leBytes k (n / 256)

/-- Little-endian decoding of a byte list into a natural number. -/
def leDecode : List Nat → Nat
  | [] => 0
  | b :: rest => b + 256 * leDecode rest

theorem leBytes_length (k n : Nat) : (leBytes k n).length = k := by
  induction k generalizing n with
  | zero => rfl
  | succ k ih => simp [leBytes, ih]

theorem leDecode_leBytes (k n : Nat) (h : n < 256 ^ k) :
    leDecode (leBytes k n) = n := by
  induction k generalizing n with
  | zero => simp [Nat.pow_zero] at h; simp [leBytes, leDecode, h]
  | succ k ih =>
    have hdiv : n / 256 < 256 ^ k := by
      rw [Nat.div_lt_iff_lt_mul (by norm_num : 0 < 256)]
      calc n < 256 ^ (k + 1) := h
        _ = 256 ^ k * 256 := by rw [Nat.pow_succ]
    simp only [leBytes, leDecode, ih (n / 256) hdiv]
    omega

/-- Modelled from the spec: the command header of the canonical design
(src/command/mod.rs of the canonical variant is absent from the sources;
only its user src/command/client.rs is present).  Fixed 18-byte layout,
little-endian: id (4 bytes, unsigned), status (2 bytes, unsigned),
method (11 bytes), data_type (1 byte). -/
structure Header where
  id : Nat
  status : Nat
  method : List Nat
  dataType : Nat
deriving DecidableEq, Repr

/-- Modelled from the spec: a command is a header plus a variable payload. -/
structure Command where
  header : Header
  data : List Nat
deriving DecidableEq, Repr

/-- RawHeader of src/command/client.rs: header plus the 32-bit payload size. -/
structure RawHeader where
  header : Header
  dataSize : Nat
deriving DecidableEq, Repr

/-- A well-formed header: each field fits its wire width and the method
is exactly 11 bytes. -/
def Header.WellFormed (h : Header) : Prop :=
  h.id < 2 ^ 32 ∧ h.status < 2 ^ 16 ∧ h.method.length = 11 ∧
    (∀ b ∈ h.method, b < 256) ∧ h.dataType < 256

instance (h : Header) : Decidable h.WellFormed := by
  unfold Header.WellFormed; infer_instance

/-- Bincode serialization of the 18-byte header (fixed-width fields,
little-endian, in declaration order). -/
def serializeHeader (h : Header) : List Nat :=
  leBytes 4 h.id ++ leBytes 2 h.status ++ h.method ++ [h.dataType]

/-- Bincode serialization of RawHeader: the 18 header bytes followed by
the 4-byte little-endian data size (the Rust code casts the payload
length with `as u32`; leBytes only keeps the value modulo 2^32, which
matches that wrapping cast). -/
def serializeRawHeader (h : Header) (dataSize : Nat) : List Nat :=
  serializeHeader h ++ leBytes 4 dataSize

/-- Bincode deserialization of the 22 bytes drained by LocoStream::read. -/
def deserializeRawHeader (b : List Nat) : RawHeader :=
  { header :=
      { id := leDecode (b.take 4)
        status := leDecode ((b.drop 4).take 2)
        method := (b.drop 6).take 11
        dataType := leDecode ((b.drop 17).take 1) }
    dataSize := leDecode ((b.drop 18).take 4) }

/-- LocoSink::send of src/command/client.rs: serialize the raw header
into the write buffer and append the payload bytes. -/
def locoSinkSend (writeBuffer : List Nat) (c : Command) : List Nat :=
  writeBuffer ++ serializeRawHeader c.header c.data.length ++ c.data

/-- The bytes a single command occupies on the wire. -/
def locoSerialize (c : Command) : List Nat :=
  serializeRawHeader c.header c.data.length ++ c.data

/-- StreamState of src/command/client.rs. -/
inductive StreamState where
  | Pending : StreamState
  | Header : RawHeader → StreamState
  | Corrupted : StreamState
deriving DecidableEq, Repr

/-- The Header arm of the read loop: drain the payload once enough bytes
are buffered, otherwise keep the partially decoded head. -/
def headerStep (rh : RawHeader) (buf : List Nat) :
    Option Command × StreamState × List Nat :=
  if buf.length < rh.dataSize then (none, .Header rh, buf)
  else (some ⟨rh.header, buf.take rh.dataSize⟩, .Pending, buf.drop rh.dataSize)

/-- LocoStream::read of src/command/client.rs.  The outer value is none
exactly when the code would reach the Corrupted arm (a panic via
unreachable); otherwise the triple is the returned command (if any), the
next state and the remaining read buffer.  From Pending with at least 22
bytes buffered the loop decodes the head and immediately retries the
Header arm within the same call. -/
def locoStreamRead (st : StreamState) (buf : List Nat) :
    Option (Option Command × StreamState × List Nat) :=
  match st with
  | .Pending =>
      if buf.length < 22 then some (none, .Pending, buf)
      else some (headerStep (deserializeRawHeader (buf.take 22)) (buf.drop 22))
  | .Header rh => some (headerStep rh buf)
  | .Corrupted => none

theorem serializeRawHeader_eq (h : Header) (ds : Nat) :
    serializeRawHeader h ds =
      leBytes 4 h.id ++
        (leBytes 2 h.status ++ (h.method ++ h.dataType :: leBytes 4 ds)) := by
  simp [serializeRawHeader, serializeHeader]

theorem serializeRawHeader_length (h : Header) (ds : Nat)
    (hm : h.method.length = 11) : (serializeRawHeader h ds).length = 22 := by
  simp [serializeRawHeader_eq, leBytes_length, hm]

theorem locoSerialize_length (c : Command) (hm : c.header.method.length = 11) :
    (locoSerialize c).length = 22 + c.data.length := by
  simp [locoSerialize, serializeRawHeader_length _ _ hm]

theorem deserialize_serializeRawHeader (h : Header) (ds : Nat)
    (hw : h.WellFormed) (hds : ds < 2 ^ 32) :
    deserializeRawHeader (serializeRawHeader h ds) = ⟨h, ds⟩ := by
  obtain ⟨hid, hst, hm, -, -⟩ := hw
  rw [serializeRawHeader_eq]
  have e256 : (2 : Nat) ^ 32 = 256 ^ 4 := by norm_num
  have e16 : (2 : Nat) ^ 16 = 256 ^ 2 := by norm_num
  have h4 : (leBytes 4 h.id ++
      (leBytes 2 h.status ++ (h.method ++ h.dataType :: leBytes 4 ds))).drop 4 =
      leBytes 2 h.status ++ (h.method ++ h.dataType :: leBytes 4 ds) :=
    List.drop_left' (leBytes_length 4 h.id)
  have h6 : (leBytes 4 h.id ++
      (leBytes 2 h.status ++ (h.method ++ h.dataType :: leBytes 4 ds))).drop 6 =
      h.method ++ h.dataType :: leBytes 4 ds := by
    have hdd : (leBytes 4 h.id ++
        (leBytes 2 h.status ++ (h.method ++ h.dataType :: leBytes 4 ds))).drop 6 =
        ((leBytes 4 h.id ++
          (leBytes 2 h.status ++ (h.method ++ h.dataType :: leBytes 4 ds))).drop 4).drop 2 := by
      rw [List.drop_drop]
    rw [hdd, h4, List.drop_left' (leBytes_length 2 h.status)]
  have h17 : (leBytes 4 h.id ++
      (leBytes 2 h.status ++ (h.method ++ h.dataType :: leBytes 4 ds))).drop 17 =
      h.dataType :: leBytes 4 ds := by
    have hdd : (leBytes 4 h.id ++
        (leBytes 2 h.status ++ (h.method ++ h.dataType :: leBytes 4 ds))).drop 17 =
        ((leBytes 4 h.id ++
          (leBytes 2 h.status ++ (h.method ++ h.dataType :: leBytes 4 ds))).drop 6).drop 11 := by
      rw [List.drop_drop]
    rw [hdd, h6, List.drop_left' hm]
  have h18 : (leBytes 4 h.id ++
      (leBytes 2 h.status ++ (h.method ++ h.dataType :: leBytes 4 ds))).drop 18 =
      leBytes 4 ds := by
    have hdd : (leBytes 4 h.id ++
        (leBytes 2 h.status ++ (h.method ++ h.dataType :: leBytes 4 ds))).drop 18 =
        ((leBytes 4 h.id ++
          (leBytes 2 h.status ++ (h.method ++ h.dataType :: leBytes 4 ds))).drop 17).drop 1 := by
      rw [List.drop_drop]
    rw [hdd, h17, List.drop_one, List.tail_cons]
  simp only [deserializeRawHeader, h4, h6, h17, h18]
  rw [List.take_left' (leBytes_length 4 h.id),
    List.take_left' (leBytes_length 2 h.status), List.take_left' hm]
  have hta : (leBytes 4 ds).take 4 = leBytes 4 ds := by
    rw [← leBytes_length 4 ds]; exact List.take_length _
  rw [hta, leDecode_leBytes 4 h.id (e256 ▸ hid),
    leDecode_leBytes 2 h.status (e16 ▸ hst), leDecode_leBytes 4 ds (e256 ▸ hds)]
  simp [leDecode]

/-- C2: serializing a well-formed command with the sink and feeding the
bytes to a fresh stream returns the same command in one read. -/
theorem locoSink_locoStream_roundtrip (c : Command) (hw : c.header.WellFormed)
    (hlen : c.data.length < 2 ^ 32) :
    locoStreamRead .Pending (locoSinkSend [] c) =
      some (some c, .Pending, []) := by
  have hm : c.header.method.length = 11 := hw.2.2.1
  have hsend : locoSinkSend [] c = locoSerialize c := by
    simp [locoSinkSend, locoSerialize]
  have hBlen : (locoSerialize c).length = 22 + c.data.length :=
    locoSerialize_length c hm
  have htake : (locoSerialize c).take 22 = serializeRawHeader c.header c.data.length :=
    List.take_left' (serializeRawHeader_length _ _ hm)
  have hdrop : (locoSerialize c).drop 22 = c.data :=
    List.drop_left' (serializeRawHeader_length _ _ hm)
  rw [hsend, locoStreamRead]
  rw [if_neg (by omega)]
  rw [htake, hdrop, deserialize_serializeRawHeader c.header c.data.length hw hlen]
  simp [headerStep]

/-- The command used by the repository test tests/client.rs: method TEST,
payload of three bytes. -/
def testCommand : Command :=
  { header :=
      { id := 0
        status := 1
        method := [84, 69, 83, 84, 0, 0, 0, 0, 0, 0, 0]
        dataType := 2 }
    data := [1, 2, 3] }

/-- Feed a list of chunks into a stream: append each chunk to the read
buffer and call read once per chunk, collecting the results.  The outer
value is none when any read would panic. -/
def feedChunks (cs : List (List Nat)) (st : StreamState) (buf : List Nat) :
    Option (List (Option Command) × StreamState × List Nat) :=
  match cs with
  | [] => some ([], st, buf)
  | chunk :: rest =>
    match locoStreamRead st (buf ++ chunk) with
    | none => none
    | some (out, st2, buf2) =>
      match feedChunks rest st2 buf2 with
      | none => none
      | some (outs, st3, buf3) => some (out :: outs, st3, buf3)

/-- Stream condition after receiving the first n bytes of a serialized
command and performing all reads: below 22 bytes nothing is drained;
from 22 bytes the head has been drained and decoded. -/
def midStream (c : Command) (n : Nat) : StreamState × List Nat :=
  if n < 22 then (.Pending, (locoSerialize c).take n)
  else (.Header ⟨c.header, c.data.length⟩, ((locoSerialize c).take n).drop 22)

theorem take_locoSerialize_drop (c : Command) (hm : c.header.method.length = 11)
    (n : Nat) (h22 : 22 ≤ n) :
    ((locoSerialize c).take n).drop 22 = c.data.take (n - 22) := by
  have hlen : (serializeRawHeader c.header c.data.length).length = 22 :=
    serializeRawHeader_length _ _ hm
  rw [locoSerialize, List.take_append_eq_append_take, hlen,
    List.take_of_length_le (by rw [hlen]; exact h22)]
  exact List.drop_left' hlen

theorem read_step (c : Command) (hw : c.header.WellFormed)
    (hlen : c.data.length < 2 ^ 32) (m n : Nat) (chunk : List Nat)
    (htake : (locoSerialize c).take n = (locoSerialize c).take m ++ chunk)
    (hmn : m ≤ n) (hn : n ≤ (locoSerialize c).length) :
    locoStreamRead (midStream c m).1 ((midStream c m).2 ++ chunk) =
      some (if n = (locoSerialize c).length then (some c, .Pending, ([] : List Nat))
        else (none, (midStream c n).1, (midStream c n).2)) := by
  have hm11 : c.header.method.length = 11 := hw.2.2.1
  have hB : (locoSerialize c).length = 22 + c.data.length := locoSerialize_length c hm11
  have htk22 : (locoSerialize c).take 22 = serializeRawHeader c.header c.data.length :=
    List.take_left' (serializeRawHeader_length _ _ hm11)
  have htlen : ∀ k, k ≤ (locoSerialize c).length → ((locoSerialize c).take k).length = k := by
    intro k hk; simp [List.length_take]; omega
  have hds : (RawHeader.mk c.header c.data.length).dataSize = c.data.length := rfl
  have hdl : (c.data.take (n - 22)).length = n - 22 ∨ 22 > n := by
    by_cases h : 22 ≤ n
    · left; simp [List.length_take]; omega
    · right; omega
  have hstep : 22 ≤ n →
      headerStep ⟨c.header, c.data.length⟩ (c.data.take (n - 22)) =
        (if n = (locoSerialize c).length then (some c, .Pending, ([] : List Nat))
          else (none, .Header ⟨c.header, c.data.length⟩, c.data.take (n - 22))) := by
    intro h22n
    have hdl2 : (c.data.take (n - 22)).length = n - 22 := by
      simp [List.length_take]; omega
    rw [headerStep, hds, hdl2]
    by_cases hend : n = (locoSerialize c).length
    · have hfull : n - 22 = c.data.length := by omega
      rw [if_neg (by omega), if_pos hend]
      simp [hfull, List.take_length, List.drop_length]
    · rw [if_pos (by omega), if_neg hend]
  by_cases hm22 : m < 22
  · -- state Pending, buffer is the first n bytes
    have hbuf : ((locoSerialize c).take m) ++ chunk = (locoSerialize c).take n :=
      htake.symm
    simp only [midStream, if_pos hm22]
    rw [hbuf, locoStreamRead]
    by_cases hn22 : n < 22
    · rw [if_pos (by rw [htlen n hn]; exact hn22)]
      have hne : n ≠ (locoSerialize c).length := by omega
      simp [midStream, if_pos hn22, hne]
    · rw [if_neg (by rw [htlen n hn]; omega)]
      have h1 : ((locoSerialize c).take n).take 22 = (locoSerialize c).take 22 := by
        rw [List.take_take]; congr 1; omega
      rw [h1, htk22, deserialize_serializeRawHeader c.header c.data.length hw hlen,
        take_locoSerialize_drop c hm11 n (by omega), hstep (by omega)]
      by_cases hend : n = (locoSerialize c).length
      · rw [if_pos hend, if_pos hend]
      · rw [if_neg hend, if_neg hend]
        simp [midStream, if_neg (by omega : ¬ n < 22),
          take_locoSerialize_drop c hm11 n (by omega)]
  · -- state Header, buffer is the data received so far
    have hbuf : ((locoSerialize c).take m).drop 22 ++ chunk =
        ((locoSerialize c).take n).drop 22 := by
      rw [htake, List.drop_append_eq_append_drop, htlen m (by omega),
        Nat.sub_eq_zero_of_le (by omega), List.drop_zero]
    simp only [midStream, if_neg hm22]
    rw [hbuf, locoStreamRead, take_locoSerialize_drop c hm11 n (by omega),
      hstep (by omega)]
    by_cases hend : n = (locoSerialize c).length
    · rw [if_pos hend, if_pos hend]
    · rw [if_neg hend, if_neg hend]
      simp [midStream, if_neg (by omega : ¬ n < 22),
        take_locoSerialize_drop c hm11 n (by omega)]

theorem feed_empty (cs : List (List Nat)) (hcs : cs.flatten = []) :
    ∃ os, feedChunks cs .Pending [] = some (os, .Pending, []) ∧
      os.filterMap id = [] := by
  induction cs with
  | nil => exact ⟨[], rfl, rfl⟩
  | cons chunk rest ih =>
    simp only [List.flatten_cons, List.append_eq_nil] at hcs
    obtain ⟨h1, h2⟩ := hcs
    obtain ⟨os, hfeed, hos⟩ := ih h2
    refine ⟨none :: os, ?_, by simpa using hos⟩
    simp [feedChunks, h1, locoStreamRead, hfeed]

theorem feed_all (c : Command) (hw : c.header.WellFormed)
    (hlen : c.data.length < 2 ^ 32) (cs : List (List Nat)) (m : Nat)
    (hm : m < (locoSerialize c).length)
    (hrest : (locoSerialize c).drop m = cs.flatten) :
    ∃ os, feedChunks cs (midStream c m).1 (midStream c m).2 =
        some (os, .Pending, []) ∧ os.filterMap id = [c] := by
  induction cs generalizing m with
  | nil =>
    exfalso
    have : (locoSerialize c).drop m = [] := by rw [hrest]; rfl
    rw [List.drop_eq_nil_iff] at this
    omega
  | cons chunk rest ih =>
    rw [List.flatten_cons] at hrest
    have hchlen : chunk.length + rest.flatten.length = (locoSerialize c).length - m := by
      have h := congrArg List.length hrest
      rw [List.length_drop, List.length_append] at h
      omega
    have hn : m + chunk.length ≤ (locoSerialize c).length := by omega
    have htake : (locoSerialize c).take (m + chunk.length) =
        (locoSerialize c).take m ++ chunk := by
      rw [List.take_add, hrest, List.take_left]
    have hstep := read_step c hw hlen m (m + chunk.length) chunk htake (by omega) hn
    by_cases hend : m + chunk.length = (locoSerialize c).length
    · rw [if_pos hend] at hstep
      have hrf : rest.flatten = [] := by
        have : rest.flatten.length = 0 := by omega
        exact List.eq_nil_of_length_eq_zero this
      obtain ⟨os, hfeed, hos⟩ := feed_empty rest hrf
      refine ⟨some c :: os, ?_, by simpa using hos⟩
      simp [feedChunks, hstep, hfeed]
    · rw [if_neg hend] at hstep
      have hlt : m + chunk.length < (locoSerialize c).length :=
        lt_of_le_of_ne hn hend
      have hdrop : (locoSerialize c).drop (m + chunk.length) = rest.flatten := by
        rw [← List.drop_drop, hrest, List.drop_left]
      obtain ⟨os, hfeed, hos⟩ := ih (m + chunk.length) hlt hdrop
      refine ⟨none :: os, ?_, by simpa using hos⟩
      simp [feedChunks, hstep, hfeed]

/-- C3: any chunking of the serialization of a well-formed command, fed
chunk by chunk with one read per chunk, never panics, yields the command
from exactly one read (every other read returns none), and leaves the
stream Pending with an empty buffer. -/
theorem locoStream_chunked_parse (c : Command) (hw : c.header.WellFormed)
    (hlen : c.data.length < 2 ^ 32) (cs : List (List Nat))
    (hcs : cs.flatten = locoSerialize c) :
    ∃ os, feedChunks cs .Pending [] = some (os, .Pending, []) ∧
      os.filterMap id = [c] := by
  have hm11 : c.header.method.length = 11 := hw.2.2.1
  have hB : (locoSerialize c).length = 22 + c.data.length := locoSerialize_length c hm11
  have h0 : (midStream c 0).1 = .Pending ∧ (midStream c 0).2 = [] := by
    constructor <;> simp [midStream]
  have := feed_all c hw hlen cs 0 (by omega) (by simpa using hcs.symm)
  rwa [h0.1, h0.2] at this

/-- Witness for the command round-trip at the concrete command used by
tests/client.rs. -/
theorem locoSink_locoStream_roundtrip_witness :
    testCommand.header.WellFormed ∧ testCommand.data.length < 2 ^ 32 ∧
      locoStreamRead .Pending (locoSinkSend [] testCommand) =
        some (some testCommand, .Pending, []) :=
  ⟨by decide, by decide,
    locoSink_locoStream_roundtrip testCommand (by decide) (by decide)⟩

/-- Witness for the chunked parse: the test command delivered in two
chunks of 10 and 15 bytes. -/
theorem locoStream_chunked_parse_witness :
    ([(locoSerialize testCommand).take 10, (locoSerialize testCommand).drop 10] :
        List (List Nat)).flatten = locoSerialize testCommand ∧
      ∃ os, feedChunks [(locoSerialize testCommand).take 10,
          (locoSerialize testCommand).drop 10] .Pending [] =
            some (os, .Pending, []) ∧ os.filterMap id = [testCommand] :=
  ⟨by simp, locoStream_chunked_parse testCommand (by decide) (by decide) _ (by simp)⟩

/-- Modelled from the spec: one block step of AES-CFB128 keystream
generation.  The AES-128 block encryption itself lives in the external
aes and libaes crates; it is abstracted as a function E from the current
feedback register (previous ciphertext block, initially the IV) to a
16-byte keystream block.  Encryption XORs the plaintext block with the
keystream; the fuel argument bounds the number of blocks and is
instantiated with the data length, which always suffices. -/
def cfbEncBlocks (E : List Nat → List Nat) : Nat → List Nat → List Nat → List Nat
  | 0, _, _ => []
  | fuel + 1, reg, data =>
    if data = [] then []
    else
      List.zipWith Nat.xor (data.take 16) ((E reg).take (data.take 16).length) ++
        cfbEncBlocks E fuel
          (List.zipWith Nat.xor (data.take 16) ((E reg).take (data.take 16).length))
          (data.drop 16)

/-- Modelled from the spec: AES-CFB128 decryption; the feedback register
is fed with the previous ciphertext block, and the same XOR recovers the
plaintext (CFB uses the forward block function in both directions). -/
def cfbDecBlocks (E : List Nat → List Nat) : Nat → List Nat → List Nat → List Nat
  | 0, _, _ => []
  | fuel + 1, reg, data =>
    if data = [] then []
    else
      List.zipWith Nat.xor (data.take 16) ((E reg).take (data.take 16).length) ++
        cfbDecBlocks E fuel (data.take 16) (data.drop 16)

/-- CFB-128 encryption of a whole buffer under an abstract block function. -/
def cfbEnc (E : List Nat → List Nat) (iv data : List Nat) : List Nat :=
  cfbEncBlocks E data.length iv data

/-- CFB-128 decryption of a whole buffer under an abstract block function. -/
def cfbDec (E : List Nat → List Nat) (iv data : List Nat) : List Nat :=
  cfbDecBlocks E data.length iv data

/-- Modelled from the spec: a secure packet is a 16-byte IV plus payload
(the canonical SecurePacket type is absent from the sources; only its
user src/secure/client.rs is present). -/
structure SecurePacket where
  iv : List Nat
  data : List Nat
deriving DecidableEq, Repr

/-- RawHeader of src/secure/client.rs: 32-bit size (IV plus ciphertext)
and the 16-byte IV. -/
structure SecureRawHeader where
  size : Nat
  iv : List Nat
deriving DecidableEq, Repr

/-- Bincode serialization of the 20-byte secure header. -/
def serializeSecureHeader (rh : SecureRawHeader) : List Nat :=
  leBytes 4 rh.size ++ rh.iv

/-- Bincode deserialization of the 20 bytes drained by the secure read. -/
def deserializeSecureHeader (b : List Nat) : SecureRawHeader :=
  { size := leDecode (b.take 4), iv := (b.drop 4).take 16 }

/-- ReadState of src/secure/client.rs. -/
inductive SecureReadState where
  | Pending : SecureReadState
  | Header : SecureRawHeader → SecureReadState
  | Corrupted : SecureReadState
deriving DecidableEq, Repr

/-- LocoClientSecureLayer of src/secure/client.rs.  The key field holds
the 16 AES key bytes; the AES block function derived from it is passed to
the operations as a parameter E (key to feedback register to keystream
block). -/
structure SecureLayer where
  key : List Nat
  readState : SecureReadState
  encryptBuffer : List Nat
  readBuffer : List Nat
  writeBuffer : List Nat
deriving DecidableEq, Repr

/-- LocoClientSecureLayer::new. -/
def secureLayerNew (encryptKey : List Nat) : SecureLayer :=
  { key := encryptKey
    readState := .Pending
    encryptBuffer := []
    readBuffer := []
    writeBuffer := [] }

/-- LocoClientSecureLayer::send: extend the encrypt buffer with the
payload, encrypt it in place under the packet IV, append the serialized
header and then drain the whole encrypt buffer into the write buffer. -/
def secureSend (E : List Nat → List Nat → List Nat) (l : SecureLayer)
    (p : SecurePacket) : SecureLayer :=
  let encryptedData := cfbEnc (E l.key) p.iv (l.encryptBuffer ++ p.data)
  { l with
      encryptBuffer := []
      writeBuffer := l.writeBuffer ++
        serializeSecureHeader ⟨(16 + encryptedData.length) % 2 ^ 32, p.iv⟩ ++
        encryptedData }

/-- The Header arm of the secure read loop.  The Rust code computes the
ciphertext length as raw_header.size as usize - 16; the unsigned
subtraction is modelled as checked (outer none on underflow, the panic
of an overflow-checked build). -/
def secureHeaderStep (E : List Nat → List Nat) (rh : SecureRawHeader)
    (buf : List Nat) :
    Option (Option SecurePacket × SecureReadState × List Nat) :=
  if rh.size < 16 then none
  else
    let size := rh.size - 16
    if buf.length < size then some (none, .Header rh, buf)
    else some (some ⟨rh.iv, cfbDec E rh.iv (buf.take size)⟩,
      .Pending, buf.drop size)

/-- LocoClientSecureLayer::read: drain and decode the 20-byte header
when buffered, then drain and decrypt the ciphertext when buffered.
From Pending with at least 20 bytes the loop decodes the header and
immediately retries the Header arm within the same call. -/
def secureRead (E : List Nat → List Nat → List Nat) (l : SecureLayer) :
    Option (Option SecurePacket × SecureLayer) :=
  match l.readState with
  | .Pending =>
      if l.readBuffer.length < 20 then some (none, l)
      else
        match secureHeaderStep (E l.key)
            (deserializeSecureHeader (l.readBuffer.take 20))
            (l.readBuffer.drop 20) with
        | none => none
        | some (out, st, buf) =>
            some (out, { l with readState := st, readBuffer := buf })
  | .Header rh =>
      match secureHeaderStep (E l.key) rh l.readBuffer with
      | none => none
      | some (out, st, buf) =>
          some (out, { l with readState := st, readBuffer := buf })
  | .Corrupted => none

/-- LocoClientSecureLayer::handshake: append the 12-byte handshake
header (wrapped key size, key_type 15, encrypt_type 2, little-endian
32-bit each) and the RSA-OAEP wrapped key to the write buffer.  The
wrapped key bytes are a parameter since RSA lives in the external rsa
crate. -/
def clientHandshake (encryptedKey : List Nat) (l : SecureLayer) : SecureLayer :=
  { l with
      writeBuffer := l.writeBuffer ++ leBytes 4 (encryptedKey.length % 2 ^ 32) ++
        leBytes 4 15 ++ leBytes 4 2 ++ encryptedKey }

/-- to_handshake_packet of src/secure/session/client.rs: the length
prefix is encrypted_key.len().to_le_bytes(), the little-endian bytes of
a usize, 8 bytes on a 64-bit target, followed by the 8-byte bincode
header (key_encrypt_type 15, encrypt_type 2) and the wrapped key. -/
def toHandshakePacket (encryptedKey : List Nat) : List Nat :=
  leBytes 8 encryptedKey.length ++ leBytes 4 15 ++ leBytes 4 2 ++ encryptedKey

/-- CryptoStore of src/secure/crypto.rs: holds the 16 AES key bytes. -/
structure CryptoStore where
  aesKey : List Nat
deriving DecidableEq, Repr

/-- CryptoStore::encrypt_aes via the external libaes cfb128_encrypt,
with the AES block function abstracted as E. -/
def encryptAes (E : List Nat → List Nat → List Nat) (store : CryptoStore)
    (data iv : List Nat) : List Nat :=
  cfbEnc (E store.aesKey) iv data

/-- CryptoStore::decrypt_aes via the external libaes cfb128_decrypt. -/
def decryptAes (E : List Nat → List Nat → List Nat) (store : CryptoStore)
    (data iv : List Nat) : List Nat :=
  cfbDec (E store.aesKey) iv data

/-- SecureServerSession::handshake of src/secure/session/mod.rs: read
the 12-byte handshake head (decode_handshake_head reads the key size
from the first 4 bytes), read that many wrapped-key bytes, run the RSA
decryption (abstracted as unwrap, none meaning an OAEP failure) for its
error effect only, and return CryptoStore::new_with_key(key) where key
is the local [0u8; 16] binding that the decryption result never
overwrites.  The outer none covers ShortRead and CorruptedData. -/
def serverHandshake (unwrap : List Nat → Option (List Nat))
    (input : List Nat) : Option CryptoStore :=
  if input.length < 12 then none
  else
    let keySize := leDecode (input.take 4)
    let rest := input.drop 12
    if rest.length < keySize then none
    else
      let encryptedKey := rest.take keySize
      let key := List.replicate 16 0
      match unwrap encryptedKey with
      | none => none
      | some _ => some ⟨key⟩

theorem cfbEncBlocks_nil (E : List Nat → List Nat) (fuel : Nat) (reg : List Nat) :
    cfbEncBlocks E fuel reg [] = [] := by
  cases fuel <;> simp [cfbEncBlocks]

theorem cfbDecBlocks_nil (E : List Nat → List Nat) (fuel : Nat) (reg : List Nat) :
    cfbDecBlocks E fuel reg [] = [] := by
  cases fuel <;> simp [cfbDecBlocks]

theorem cfbEncBlocks_length (E : List Nat → List Nat)
    (hE : ∀ r, (E r).length = 16) (fuel : Nat) :
    ∀ (reg data : List Nat), data.length ≤ fuel →
      (cfbEncBlocks E fuel reg data).length = data.length := by
  induction fuel with
  | zero =>
    intro reg data hd
    have : data = [] := List.eq_nil_of_length_eq_zero (by omega)
    simp [this, cfbEncBlocks]
  | succ fuel ih =>
    intro reg data hd
    by_cases hnil : data = []
    · simp [hnil, cfbEncBlocks]
    · have hpos : 0 < data.length := List.length_pos.mpr hnil
      rw [cfbEncBlocks, if_neg hnil]
      simp only [List.length_append, List.length_zipWith, List.length_take, hE]
      rw [ih _ _ (by simp [List.length_drop]; omega)]
      simp [List.length_drop]
      omega

theorem cfbDecBlocks_length (E : List Nat → List Nat)
    (hE : ∀ r, (E r).length = 16) (fuel : Nat) :
    ∀ (reg data : List Nat), data.length ≤ fuel →
      (cfbDecBlocks E fuel reg data).length = data.length := by
  induction fuel with
  | zero =>
    intro reg data hd
    have : data = [] := List.eq_nil_of_length_eq_zero (by omega)
    simp [this, cfbDecBlocks]
  | succ fuel ih =>
    intro reg data hd
    by_cases hnil : data = []
    · simp [hnil, cfbDecBlocks]
    · have hpos : 0 < data.length := List.length_pos.mpr hnil
      rw [cfbDecBlocks, if_neg hnil]
      simp only [List.length_append, List.length_zipWith, List.length_take, hE]
      rw [ih _ _ (by simp [List.length_drop]; omega)]
      simp [List.length_drop]
      omega

theorem zipWith_xor_cancel :
    ∀ (a k : List Nat), a.length ≤ k.length →
      List.zipWith Nat.xor (List.zipWith Nat.xor a k) k = a := by
  intro a
  induction a with
  | nil => intro k _; simp
  | cons x xs ih =>
    intro k hk
    cases k with
    | nil => simp at hk
    | cons y ys =>
      simp only [List.zipWith_cons_cons]
      rw [show Nat.xor (Nat.xor x y) y = x from Nat.xor_cancel_right y x,
        ih ys (by simpa using hk)]

theorem cfbDecBlocks_cfbEncBlocks (E : List Nat → List Nat)
    (hE : ∀ r, (E r).length = 16) (fuel : Nat) :
    ∀ (reg data : List Nat), data.length ≤ fuel →
      cfbDecBlocks E fuel reg (cfbEncBlocks E fuel reg data) = data := by
  induction fuel with
  | zero =>
    intro reg data hd
    have : data = [] := List.eq_nil_of_length_eq_zero (by omega)
    simp [this, cfbEncBlocks, cfbDecBlocks]
  | succ fuel ih =>
    intro reg data hd
    by_cases hnil : data = []
    · simp [hnil, cfbEncBlocks, cfbDecBlocks]
    · have hpos : 0 < data.length := List.length_pos.mpr hnil
      rw [cfbEncBlocks, if_neg hnil]
      have hblock : (data.take 16).length = min 16 data.length := by
        simp only [List.length_take]
      have hks : ((E reg).take (data.take 16).length).length = (data.take 16).length := by
        simp only [List.length_take, hE, hblock]; omega
      have hclen : (List.zipWith Nat.xor (data.take 16)
          ((E reg).take (data.take 16).length)).length = (data.take 16).length := by
        simp only [List.length_zipWith, hks]; omega
      rw [cfbDecBlocks, if_neg (by
        intro habs
        rcases List.append_eq_nil.mp habs with ⟨hc, -⟩
        have hlc := congrArg List.length hc
        rw [hclen, hblock] at hlc
        simp only [List.length_nil] at hlc
        omega)]
      by_cases hbig : 16 ≤ data.length
      · have hc16 : (List.zipWith Nat.xor (data.take 16)
            ((E reg).take (data.take 16).length)).length = 16 := by
          rw [hclen, hblock]; omega
        rw [List.take_left' hc16, List.drop_left' hc16, hclen,
          zipWith_xor_cancel _ _ (le_of_eq hks.symm),
          ih _ _ (by simp only [List.length_drop]; omega)]
        exact List.take_append_drop 16 data
      · have hsmall : data.length < 16 := by omega
        have hdrop : data.drop 16 = [] := List.drop_eq_nil_of_le (by omega)
        rw [hdrop, cfbEncBlocks_nil, List.append_nil]
        have hcsmall : (List.zipWith Nat.xor (data.take 16)
            ((E reg).take (data.take 16).length)).length < 16 := by
          rw [hclen, hblock]; omega
        rw [List.take_of_length_le (by omega), List.drop_eq_nil_of_le (by omega),
          cfbDecBlocks_nil, List.append_nil, hclen,
          zipWith_xor_cancel _ _ (le_of_eq hks.symm)]
        exact List.take_of_length_le (by omega)

theorem cfbEnc_length (E : List Nat → List Nat) (hE : ∀ r, (E r).length = 16)
    (iv data : List Nat) : (cfbEnc E iv data).length = data.length :=
  cfbEncBlocks_length E hE data.length iv data le_rfl

theorem cfbDec_length (E : List Nat → List Nat) (hE : ∀ r, (E r).length = 16)
    (iv data : List Nat) : (cfbDec E iv data).length = data.length :=
  cfbDecBlocks_length E hE data.length iv data le_rfl

theorem cfbDec_cfbEnc (E : List Nat → List Nat) (hE : ∀ r, (E r).length = 16)
    (iv data : List Nat) : cfbDec E iv (cfbEnc E iv data) = data := by
  rw [cfbDec, cfbEnc, cfbEncBlocks_length E hE data.length iv data le_rfl]
  exact cfbDecBlocks_cfbEncBlocks E hE data.length iv data le_rfl

/-- Rust slice copy_from_slice: the destination slice is replaced by the
source only when both lengths agree, otherwise the call panics (none). -/
def copyFromSlice (dst src : List Nat) : Option (List Nat) :=
  if src.length = dst.length then some src else none

/-- Header::to_name of src/command/mod.rs: an all-zero 11-byte array
whose prefix of length min(len, 11) is overwritten via copy_from_slice
from the whole input.  For inputs longer than 11 bytes the source slice
is longer than the destination and copy_from_slice panics (none). -/
def to_name (s : List Nat) : Option (List Nat) :=
  match copyFromSlice ((List.replicate 11 0).take (min s.length 11)) s with
  | none => none
  | some pre => some (pre ++ (List.replicate 11 0).drop (min s.length 11))

/-- The name computation inside Builder::encode of src/command/builder.rs:
len = min(input length, 11); the first len bytes of the all-zero array
are overwritten with the first len input bytes, so longer inputs are
silently truncated and a Command is still produced. -/
def builderName (s : List Nat) : List Nat :=
  s.take (min s.length 11) ++ List.replicate (11 - min s.length 11) 0

/-- A fixed AES block function usable for concrete witnesses: every
keystream block is sixteen bytes of value one. -/
def constBlockFn (_ _ : List Nat) : List Nat := List.replicate 16 1

theorem serializeSecureHeader_length (rh : SecureRawHeader)
    (hiv : rh.iv.length = 16) : (serializeSecureHeader rh).length = 20 := by
  simp [serializeSecureHeader, leBytes_length, hiv]

theorem deserialize_serializeSecureHeader (rh : SecureRawHeader)
    (hiv : rh.iv.length = 16) (hs : rh.size < 2 ^ 32) :
    deserializeSecureHeader (serializeSecureHeader rh) = rh := by
  have e256 : (2 : Nat) ^ 32 = 256 ^ 4 := by norm_num
  rw [serializeSecureHeader, deserializeSecureHeader,
    List.take_left' (leBytes_length 4 rh.size),
    List.drop_left' (leBytes_length 4 rh.size),
    leDecode_leBytes 4 rh.size (e256 ▸ hs),
    List.take_of_length_le (le_of_eq hiv)]

/-- C8: under any AES block function producing 16-byte keystream blocks,
CFB-128 decryption inverts CFB-128 encryption for every key, IV and
plaintext, and both directions preserve length. -/
theorem decryptAes_encryptAes (E : List Nat → List Nat → List Nat)
    (store : CryptoStore) (iv P : List Nat)
    (hE : ∀ r, (E store.aesKey r).length = 16) :
    decryptAes E store (encryptAes E store P iv) iv = P ∧
      (encryptAes E store P iv).length = P.length ∧
      (decryptAes E store P iv).length = P.length := by
  refine ⟨?_, ?_, ?_⟩
  · exact cfbDec_cfbEnc (E store.aesKey) hE iv P
  · exact cfbEnc_length (E store.aesKey) hE iv P
  · exact cfbDec_length (E store.aesKey) hE iv P

/-- Witness for the AES round-trip at a concrete key, IV and plaintext. -/
theorem decryptAes_encryptAes_witness :
    decryptAes constBlockFn ⟨List.replicate 16 0⟩
        (encryptAes constBlockFn ⟨List.replicate 16 0⟩ [0, 1, 2]
          (List.replicate 16 0)) (List.replicate 16 0) = [0, 1, 2] ∧
      (encryptAes constBlockFn ⟨List.replicate 16 0⟩ [0, 1, 2]
        (List.replicate 16 0)).length = 3 ∧
      (decryptAes constBlockFn ⟨List.replicate 16 0⟩ [0, 1, 2]
        (List.replicate 16 0)).length = 3 :=
  decryptAes_encryptAes constBlockFn ⟨List.replicate 16 0⟩
    (List.replicate 16 0) [0, 1, 2] (fun _ => rfl)

theorem secureSend_writeBuffer (E : List Nat → List Nat → List Nat)
    (l : SecureLayer) (p : SecurePacket) (henc : l.encryptBuffer = []) :
    (secureSend E l p).writeBuffer =
      l.writeBuffer ++
        serializeSecureHeader
          ⟨(16 + (cfbEnc (E l.key) p.iv p.data).length) % 2 ^ 32, p.iv⟩ ++
        cfbEnc (E l.key) p.iv p.data := by
  simp [secureSend, henc]

/-- C5: with an empty encrypt buffer, send appends exactly the 4-byte
little-endian size 16 + ciphertext length, the 16 IV bytes and the
ciphertext; the ciphertext is as long as the plaintext, so the append
totals 20 + payload length bytes. -/
theorem secureSend_layout (E : List Nat → List Nat → List Nat)
    (l : SecureLayer) (p : SecurePacket) (henc : l.encryptBuffer = [])
    (hE : ∀ r, (E l.key r).length = 16) (hiv : p.iv.length = 16)
    (hlen : 16 + p.data.length < 2 ^ 32) :
    (secureSend E l p).writeBuffer =
      l.writeBuffer ++ leBytes 4 (16 + (cfbEnc (E l.key) p.iv p.data).length) ++
        p.iv ++ cfbEnc (E l.key) p.iv p.data ∧
      (cfbEnc (E l.key) p.iv p.data).length = p.data.length ∧
      (secureSend E l p).writeBuffer.length =
        l.writeBuffer.length + (20 + p.data.length) := by
  have hct : (cfbEnc (E l.key) p.iv p.data).length = p.data.length :=
    cfbEnc_length (E l.key) hE p.iv p.data
  have hmod : (16 + (cfbEnc (E l.key) p.iv p.data).length) % 2 ^ 32 =
      16 + (cfbEnc (E l.key) p.iv p.data).length := by
    rw [hct]; exact Nat.mod_eq_of_lt hlen
  refine ⟨?_, hct, ?_⟩
  · rw [secureSend_writeBuffer E l p henc, serializeSecureHeader, hmod]
    simp
  · rw [secureSend_writeBuffer E l p henc]
    simp [serializeSecureHeader, leBytes_length, hiv, hct]
    omega

/-- Witness for the send layout at a concrete layer and packet. -/
theorem secureSend_layout_witness :
    (secureSend constBlockFn (secureLayerNew (List.replicate 16 0))
        ⟨List.replicate 16 0, [0, 1, 2]⟩).writeBuffer =
      [] ++ leBytes 4 (16 + (cfbEnc (constBlockFn (List.replicate 16 0))
          (List.replicate 16 0) [0, 1, 2]).length) ++ List.replicate 16 0 ++
        cfbEnc (constBlockFn (List.replicate 16 0)) (List.replicate 16 0) [0, 1, 2] ∧
      (cfbEnc (constBlockFn (List.replicate 16 0))
        (List.replicate 16 0) [0, 1, 2]).length = 3 ∧
      (secureSend constBlockFn (secureLayerNew (List.replicate 16 0))
        ⟨List.replicate 16 0, [0, 1, 2]⟩).writeBuffer.length = 0 + (20 + 3) :=
  secureSend_layout constBlockFn (secureLayerNew (List.replicate 16 0))
    ⟨List.replicate 16 0, [0, 1, 2]⟩ rfl (fun _ => rfl) (by decide) (by norm_num)

theorem secureRead_pending (E : List Nat → List Nat → List Nat)
    (k eb rb wb : List Nat) :
    secureRead E ⟨k, .Pending, eb, rb, wb⟩ =
      (if rb.length < 20 then some (none, ⟨k, .Pending, eb, rb, wb⟩)
        else
          match secureHeaderStep (E k) (deserializeSecureHeader (rb.take 20))
              (rb.drop 20) with
          | none => none
          | some (out, st, buf) => some (out, ⟨k, st, eb, buf, wb⟩)) := rfl

/-- C4: a packet sent on a secure layer holding key k, whose emitted
bytes are fed to the read buffer of a fresh secure layer holding the
same key, is returned unchanged by a single read, leaving the reader
Pending with an empty buffer. -/
theorem securePacket_roundtrip (E : List Nat → List Nat → List Nat)
    (k : List Nat) (p : SecurePacket) (hE : ∀ r, (E k r).length = 16)
    (hiv : p.iv.length = 16) (hlen : 16 + p.data.length < 2 ^ 32) :
    secureRead E
        { secureLayerNew k with
            readBuffer := (secureSend E (secureLayerNew k) p).writeBuffer } =
      some (some p, secureLayerNew k) := by
  have hct : (cfbEnc (E k) p.iv p.data).length = p.data.length :=
    cfbEnc_length (E k) hE p.iv p.data
  have hmod : (16 + (cfbEnc (E k) p.iv p.data).length) % 2 ^ 32 =
      16 + p.data.length := by
    rw [hct]; exact Nat.mod_eq_of_lt hlen
  have hwb : (secureSend E (secureLayerNew k) p).writeBuffer =
      serializeSecureHeader ⟨16 + p.data.length, p.iv⟩ ++
        cfbEnc (E k) p.iv p.data := by
    have hbase : (secureSend E (secureLayerNew k) p).writeBuffer =
        [] ++ serializeSecureHeader
            ⟨(16 + (cfbEnc (E k) p.iv ([] ++ p.data)).length) % 2 ^ 32, p.iv⟩ ++
          cfbEnc (E k) p.iv ([] ++ p.data) := rfl
    rw [hbase]
    simp only [List.nil_append]
    rw [hmod]
  have hhl : (serializeSecureHeader ⟨16 + p.data.length, p.iv⟩).length = 20 :=
    serializeSecureHeader_length _ hiv
  have hlayer : ({ secureLayerNew k with
      readBuffer := (secureSend E (secureLayerNew k) p).writeBuffer } : SecureLayer) =
      ⟨k, .Pending, [],
        serializeSecureHeader ⟨16 + p.data.length, p.iv⟩ ++ cfbEnc (E k) p.iv p.data,
        []⟩ := by
    rw [← hwb]; rfl
  rw [hlayer, secureRead_pending]
  rw [if_neg (by rw [List.length_append, hhl]; omega)]
  rw [List.take_left' hhl, List.drop_left' hhl,
    deserialize_serializeSecureHeader _ hiv (by exact hlen)]
  rw [secureHeaderStep]
  have hsz : (⟨16 + p.data.length, p.iv⟩ : SecureRawHeader).size =
      16 + p.data.length := rfl
  have hivp : (⟨16 + p.data.length, p.iv⟩ : SecureRawHeader).iv = p.iv := rfl
  rw [hsz, hivp]
  rw [if_neg (by omega)]
  have h16 : 16 + p.data.length - 16 = p.data.length := by omega
  rw [h16, if_neg (by rw [hct]; omega)]
  rw [List.take_of_length_le (le_of_eq hct),
    List.drop_eq_nil_of_le (le_of_eq hct),
    cfbDec_cfbEnc (E k) hE p.iv p.data]
  rfl

/-- Witness for the secure packet round-trip at the concrete scenario of
tests/secure.rs: zero IV, payload 0, 1, 2. -/
theorem securePacket_roundtrip_witness :
    secureRead constBlockFn
        { secureLayerNew (List.replicate 16 0) with
            readBuffer := (secureSend constBlockFn
              (secureLayerNew (List.replicate 16 0))
              ⟨List.replicate 16 0, [0, 1, 2]⟩).writeBuffer } =
      some (some ⟨List.replicate 16 0, [0, 1, 2]⟩,
        secureLayerNew (List.replicate 16 0)) :=
  securePacket_roundtrip constBlockFn (List.replicate 16 0)
    ⟨List.replicate 16 0, [0, 1, 2]⟩ (fun _ => rfl) (by decide) (by decide)

/-- C6 (amended part): after the handshake of the IO-free client secure
layer with a 256-byte wrapped key, the write buffer holds 268 bytes:
bytes 0 to 3 decode to 256, bytes 4 to 7 to key_type 15, bytes 8 to 11
to encrypt_type 2. -/
theorem clientHandshake_bytes (k ek : List Nat) (hek : ek.length = 256) :
    (clientHandshake ek (secureLayerNew k)).writeBuffer.length = 268 ∧
      leDecode ((clientHandshake ek (secureLayerNew k)).writeBuffer.take 4) = 256 ∧
      leDecode (((clientHandshake ek (secureLayerNew k)).writeBuffer.drop 4).take 4) = 15 ∧
      leDecode (((clientHandshake ek (secureLayerNew k)).writeBuffer.drop 8).take 4) = 2 := by
  have hbase : (clientHandshake ek (secureLayerNew k)).writeBuffer =
      [] ++ leBytes 4 (ek.length % 2 ^ 32) ++ leBytes 4 15 ++ leBytes 4 2 ++ ek := rfl
  have hwb : (clientHandshake ek (secureLayerNew k)).writeBuffer =
      leBytes 4 256 ++ (leBytes 4 15 ++ (leBytes 4 2 ++ ek)) := by
    rw [hbase, hek, Nat.mod_eq_of_lt (by norm_num : (256 : Nat) < 2 ^ 32)]
    simp [List.append_assoc]
  refine ⟨?_, ?_, ?_, ?_⟩
  · rw [hwb]; simp [leBytes_length, hek]
  · rw [hwb, List.take_left' (leBytes_length 4 256),
      leDecode_leBytes 4 256 (by norm_num)]
  · rw [hwb, List.drop_left' (leBytes_length 4 256),
      List.take_left' (leBytes_length 4 15), leDecode_leBytes 4 15 (by norm_num)]
  · rw [hwb]
    have hdd : (leBytes 4 256 ++ (leBytes 4 15 ++ (leBytes 4 2 ++ ek))).drop 8 =
        ((leBytes 4 256 ++ (leBytes 4 15 ++ (leBytes 4 2 ++ ek))).drop 4).drop 4 := by
      rw [List.drop_drop]
    rw [hdd, List.drop_left' (leBytes_length 4 256),
      List.drop_left' (leBytes_length 4 15),
      List.take_left' (leBytes_length 4 2), leDecode_leBytes 4 2 (by norm_num)]

/-- Witness for the client handshake byte layout with a 256-byte wrapped
key of zeros. -/
theorem clientHandshake_bytes_witness :
    (List.replicate 256 0 : List Nat).length = 256 ∧
      (clientHandshake (List.replicate 256 0)
          (secureLayerNew (List.replicate 16 0))).writeBuffer.length = 268 ∧
      leDecode ((clientHandshake (List.replicate 256 0)
          (secureLayerNew (List.replicate 16 0))).writeBuffer.take 4) = 256 ∧
      leDecode (((clientHandshake (List.replicate 256 0)
          (secureLayerNew (List.replicate 16 0))).writeBuffer.drop 4).take 4) = 15 ∧
      leDecode (((clientHandshake (List.replicate 256 0)
          (secureLayerNew (List.replicate 16 0))).writeBuffer.drop 8).take 4) = 2 :=
  ⟨by simp,
    clientHandshake_bytes (List.replicate 16 0) (List.replicate 256 0) (by simp)⟩

/-- C6 counterexample: the emitter to_handshake_packet of
src/secure/session/client.rs writes an 8-byte usize length prefix, so
its output with a 256-byte wrapped key is 272 bytes, not 268, and bytes
4 to 7 decode to 0, not 15. -/
theorem toHandshakePacket_layout_counterexample :
    (toHandshakePacket (List.replicate 256 0)).length = 272 ∧
      leDecode (((toHandshakePacket (List.replicate 256 0)).drop 4).take 4) = 0 := by
  constructor
  · simp [toHandshakePacket, leBytes_length]
  · rfl

/-- C7 counterexample: the name computation of Builder::encode does not
fail on a 12-byte method string; it produces the truncated 11-byte name. -/
theorem builderName_truncates_counterexample :
    builderName [65, 66, 67, 68, 69, 70, 71, 72, 73, 74, 75, 76] =
        [65, 66, 67, 68, 69, 70, 71, 72, 73, 74, 75] ∧
      to_name [65, 66, 67, 68, 69, 70, 71, 72, 73, 74, 75, 76] = none := by
  constructor
  · rfl
  · rfl

/-- C7 (amended): for method strings longer than 11 bytes, Header::to_name
panics on the length-mismatched copy_from_slice while Builder::encode
silently truncates to the first 11 bytes; neither returns a clean
absence of a value. -/
theorem name_construction_overlong (s : List Nat) (h : 11 < s.length) :
    to_name s = none ∧ builderName s = s.take 11 := by
  have hmin : min s.length 11 = 11 := by omega
  constructor
  · simp only [to_name, copyFromSlice, hmin, List.take_replicate,
      Nat.min_self, List.length_replicate]
    rw [if_neg (by omega)]
  · rw [builderName, hmin]
    simp

/-- Witness for the overlong method name behavior at a 12-byte input. -/
theorem name_construction_overlong_witness :
    11 < ([65, 66, 67, 68, 69, 70, 71, 72, 73, 74, 75, 76] : List Nat).length ∧
      (to_name [65, 66, 67, 68, 69, 70, 71, 72, 73, 74, 75, 76] = none ∧
        builderName [65, 66, 67, 68, 69, 70, 71, 72, 73, 74, 75, 76] =
          ([65, 66, 67, 68, 69, 70, 71, 72, 73, 74, 75, 76] : List Nat).take 11) :=
  ⟨by decide, name_construction_overlong _ (by decide)⟩

/-- A layer whose read buffer holds a 20-byte secure header announcing
size 0, below the documented minimum of 16. -/
def underflowLayer : SecureLayer :=
  { secureLayerNew (List.replicate 16 0) with
      readBuffer := leBytes 4 0 ++ List.replicate 16 0 }

/-- C9 counterexample: on a buffered header with size 0 the read
operation does not terminate normally; the size - 16 computation
underflows (modelled as the checked-subtraction panic). -/
theorem secureRead_underflow_counterexample :
    secureRead constBlockFn underflowLayer = none := by rfl

/-- C9 (amended): the secure read is partial: whenever the buffered
header announces a size below 16, the ciphertext length computation
size - 16 underflows and read panics instead of returning. -/
theorem secureRead_size_underflow (E : List Nat → List Nat → List Nat)
    (l : SecureLayer) (hst : l.readState = .Pending)
    (hlen : 20 ≤ l.readBuffer.length)
    (hsz : leDecode (l.readBuffer.take 4) < 16) :
    secureRead E l = none := by
  obtain ⟨k, st, eb, rb, wb⟩ := l
  simp only at hst hlen hsz
  subst hst
  rw [secureRead_pending]
  rw [if_neg (by omega)]
  have hs : (deserializeSecureHeader (rb.take 20)).size = leDecode (rb.take 4) := by
    simp [deserializeSecureHeader, List.take_take]
  rw [secureHeaderStep, if_pos (by rw [hs]; exact hsz)]

/-- Witness for the underflow partiality at the concrete size-0 header. -/
theorem secureRead_size_underflow_witness :
    underflowLayer.readState = .Pending ∧ 20 ≤ underflowLayer.readBuffer.length ∧
      leDecode (underflowLayer.readBuffer.take 4) < 16 ∧
      secureRead (fun _ _ => []) underflowLayer = none :=
  ⟨by decide, by decide, by decide,
    secureRead_size_underflow (fun _ _ => []) underflowLayer rfl (by decide) (by decide)⟩

/-- The bytes one send appends for one packet: serialized header with
size 16 plus ciphertext length, then the ciphertext of exactly that
packet payload. -/
def packetBytes (E : List Nat → List Nat → List Nat) (k : List Nat)
    (p : SecurePacket) : List Nat :=
  serializeSecureHeader ⟨(16 + (cfbEnc (E k) p.iv p.data).length) % 2 ^ 32, p.iv⟩ ++
    cfbEnc (E k) p.iv p.data

/-- A sequence of sends on a secure layer. -/
def sendAll (E : List Nat → List Nat → List Nat) (l : SecureLayer)
    (ps : List SecurePacket) : SecureLayer :=
  ps.foldl (secureSend E) l

theorem sendAll_spec (E : List Nat → List Nat → List Nat) :
    ∀ (ps : List SecurePacket) (k : List Nat) (st : SecureReadState)
      (rb wb : List Nat),
      sendAll E ⟨k, st, [], rb, wb⟩ ps =
        ⟨k, st, [], rb, wb ++ (ps.map (packetBytes E k)).flatten⟩ := by
  intro ps
  induction ps with
  | nil => intro k st rb wb; simp [sendAll]
  | cons p rest ih =>
    intro k st rb wb
    have hsend : secureSend E ⟨k, st, [], rb, wb⟩ p =
        ⟨k, st, [], rb, wb ++ packetBytes E k p⟩ := by
      simp [secureSend, packetBytes]
    have hfold : sendAll E ⟨k, st, [], rb, wb⟩ (p :: rest) =
        sendAll E (secureSend E ⟨k, st, [], rb, wb⟩ p) rest := rfl
    rw [hfold, hsend, ih]
    simp [List.append_assoc]

/-- C10: starting from a fresh layer, the encrypt buffer is empty before
the first send and after every send; consequently the write buffer after
any sequence of sends is the concatenation, packet by packet, of a header
and the ciphertext of exactly that packet payload. -/
theorem encryptBuffer_drained (E : List Nat → List Nat → List Nat)
    (k : List Nat) (ps : List SecurePacket) :
    (secureLayerNew k).encryptBuffer = [] ∧
      sendAll E (secureLayerNew k) ps =
        ⟨k, .Pending, [], [], (ps.map (packetBytes E k)).flatten⟩ := by
  refine ⟨rfl, ?_⟩
  have := sendAll_spec E ps k .Pending [] []
  simpa using this

/-- C1: the server handshake evaluated at a complete, well-formed
handshake preamble wrapping the session key 1, 0, ..., 0 (the unwrap
argument models a successful RSA-OAEP decryption returning exactly the
wrapped bytes).  The constructed CryptoStore holds the all-zero key, not
the key the initiator wrapped. -/
theorem serverHandshake_returns_zero_key :
    serverHandshake some
        (leBytes 4 16 ++ leBytes 4 15 ++ leBytes 4 2 ++
          (1 :: List.replicate 15 0)) =
        some ⟨List.replicate 16 0⟩ ∧
      (1 :: List.replicate 15 0) ≠ List.replicate 16 0 := by
  constructor
  · rfl
  · decide

end Loco

